import Mathlib

/-!
Shallow embedding of the USFM-to-dictionary converter (`usfm2dict.py`):
the tokenizer, the stylesheet/tag metadata consulted by the parser-state
predicates, the parser-state predicates themselves (`is_verse_para`,
`is_verse_text`), and the single-pass segmentation driver (`parse`).

Strings are modelled as `List Char`.  Python's whitespace notion
(`str.strip`, regex `\s`) is modelled by the ASCII whitespace set `isWs`;
all characters relevant to the markup language are ASCII.
-/

abbrev Str := List Char

def str (s : String) : Str := s.data

/-- ASCII whitespace, the model of Python `str.isspace` / regex `\s`. -/
def isWs (c : Char) : Bool :=
  c == ' ' || c == '\t' || c == '\n' || c == '\r' || c == '\x0b' || c == '\x0c'

/-- Python `s.lstrip()`. -/
def lstripWs (l : Str) : Str := l.dropWhile isWs

/-- Python `s.strip()`: drop whitespace from both ends. -/
def stripWs (l : Str) : Str :=
  ((l.dropWhile isWs).reverse.dropWhile isWs).reverse

/-- `re.sub(r'\s+', ' ', s)` with the previous-character-was-whitespace flag:
each maximal whitespace run is replaced by a single space. -/
def collapseWsAux : Bool → Str → Str
  | _, [] => []
  | prevWs, c :: cs =>
    if isWs c then
      if prevWs then collapseWsAux true cs else ' ' :: collapseWsAux true cs
    else c :: collapseWsAux false cs

def collapseWs (l : Str) : Str := collapseWsAux false l

/-- The per-value cleanup at the end of `parse`:
`re.sub(r'\s+', ' ', v).strip()`. -/
def clean_text (l : Str) : Str := stripWs (collapseWs l)

/-- Maximal non-whitespace runs of a string, accumulating the current
(reversed) word in `acc`. -/
def wordsAux : Str → Str → List Str
  | acc, [] => if acc.isEmpty then [] else [acc.reverse]
  | acc, c :: cs =>
    if isWs c then
      if acc.isEmpty then wordsAux [] cs else acc.reverse :: wordsAux [] cs
    else wordsAux (c :: acc) cs

def words_of (l : Str) : List Str := wordsAux [] l

/-- Join words with single spaces. -/
def join_words : List Str → Str
  | [] => []
  | [w] => w
  | w :: v :: ws => w ++ ' ' :: join_words (v :: ws)

/-! ## Tag metadata (UsfmTextType, UsfmTag, stylesheet)

`UsfmTextType` is a `Flag` in the source: a set of seven flags, compared
with `==` (whole-set equality).  It is modelled as a record of Booleans.
Of the many `UsfmTag` fields only `text_type` is ever consulted by the
parser-state predicates, so the tag model keeps `marker` and `text_type`.
-/

structure UsfmTextType where
  TITLE : Bool
  SECTION : Bool
  VERSE_TEXT : Bool
  NOTE_TEXT : Bool
  OTHER : Bool
  BACK_TRANSLATION : Bool
  TRANSLATION_NOTE : Bool
  deriving DecidableEq, Repr

def NOT_SPECIFIED : UsfmTextType := ⟨false, false, false, false, false, false, false⟩

def VERSE_TEXT : UsfmTextType := { NOT_SPECIFIED with VERSE_TEXT := true }

structure UsfmTag where
  marker : Str
  text_type : UsfmTextType
  deriving DecidableEq, Repr

/-- A stylesheet, as consulted by the predicates: a total `get_tag`. -/
abbrev UsfmStylesheet := Str → UsfmTag

/-- The program's stylesheet.  `UsfmStylesheet._create_tag` and
`_create_default_tags` set `style_type` and `text_properties` but never
`text_type`, so every tag handed out by `get_tag` — including the
pre-registered `id`, `c`, `v` tags — carries
`text_type = UsfmTextType.NOT_SPECIFIED`. -/
def default_stylesheet : UsfmStylesheet := fun m => ⟨m, NOT_SPECIFIED⟩

/-! ## Parser-state elements and predicates -/

inductive UsfmElementType where
  | BOOK | PARA | CHAR | TABLE | ROW | CELL | NOTE | SIDEBAR
  deriving DecidableEq, Repr

structure UsfmParserElement where
  type : UsfmElementType
  marker : Option Str
  deriving DecidableEq, Repr

/-- Stack push: Python `list.append` (innermost element last). -/
def stack_push (stack : List UsfmParserElement) (e : UsfmParserElement) :
    List UsfmParserElement := stack ++ [e]

/-- Stack pop: Python `list.pop` (innermost element removed). -/
def stack_pop (stack : List UsfmParserElement) :
    Option UsfmParserElement × List UsfmParserElement :=
  (stack.getLast?, stack.dropLast)

/-- `UsfmParserState.para_tag`: the innermost stack frame of type
PARA/BOOK/ROW/SIDEBAR, resolved to its tag.  The source asserts
`elem.marker is not None` on the found frame; a `none` marker (which would
raise `AssertionError` there) yields `none` here. -/
def para_tag (sty : UsfmStylesheet) (stack : List UsfmParserElement) : Option UsfmTag :=
  match stack.reverse.find? (fun e =>
      e.type == UsfmElementType.PARA || e.type == UsfmElementType.BOOK ||
      e.type == UsfmElementType.ROW || e.type == UsfmElementType.SIDEBAR) with
  | some e =>
    match e.marker with
    | some m => some (sty m)
    | none => none
  | none => none

/-- `UsfmParserState.char_tags`: tags of the CHAR frames with a marker,
innermost first. -/
def char_tags (sty : UsfmStylesheet) (stack : List UsfmParserElement) : List UsfmTag :=
  stack.reverse.filterMap (fun e =>
    if e.type == UsfmElementType.CHAR then e.marker.map sty else none)

/-- `UsfmParserState.is_verse_para`: note the `==` comparisons on the whole
flag set, exactly as in the source. -/
def is_verse_para (sty : UsfmStylesheet) (stack : List UsfmParserElement) : Bool :=
  match para_tag sty stack with
  | none => true
  | some tag => tag.text_type == VERSE_TEXT || tag.text_type == NOT_SPECIFIED

/-- `UsfmParserState.is_verse_text`. -/
def is_verse_text (sty : UsfmStylesheet) (stack : List UsfmParserElement) : Bool :=
  if stack.any (fun e =>
      e.type == UsfmElementType.SIDEBAR || e.type == UsfmElementType.NOTE) then false
  else if !is_verse_para sty stack then false
  else (char_tags sty stack).all (fun tag =>
    tag.text_type == VERSE_TEXT || tag.text_type == NOT_SPECIFIED)

/-! Spec-side formulations of the two predicates, for the refinement claim
about them.  `nearest_paragraph_tag` is the spec's "topmost stack frame
whose type ∈ {Para, Book, Row, Sidebar}, resolved to its Tag, else none".
The `incl` versions follow the spec's words ("text-type flags *include*
VerseText"); the `eq` versions use whole-set equality. -/

def nearest_paragraph_tag (sty : UsfmStylesheet) (stack : List UsfmParserElement) :
    Option UsfmTag :=
  (stack.reverse.find? (fun e =>
      e.type == UsfmElementType.PARA || e.type == UsfmElementType.BOOK ||
      e.type == UsfmElementType.ROW || e.type == UsfmElementType.SIDEBAR)).bind
    (fun e => e.marker.map sty)

/-- Modelled from the spec: `isVerseParagraph` — true iff
`nearestParagraphTag` is none, OR its text-type flags include VerseText,
OR its text-type flags are unspecified (empty set). -/
def spec_is_verse_para_incl (sty : UsfmStylesheet) (stack : List UsfmParserElement) : Bool :=
  match nearest_paragraph_tag sty stack with
  | none => true
  | some tag => tag.text_type.VERSE_TEXT || tag.text_type == NOT_SPECIFIED

/-- Modelled from the spec: `isVerseText` — false if any stack frame is
Sidebar or Note; else false if `isVerseParagraph` is false; else false if
any character tag has text-type flags both non-empty and excluding
VerseText; else true. -/
def spec_is_verse_text_incl (sty : UsfmStylesheet) (stack : List UsfmParserElement) : Bool :=
  !(stack.any (fun e =>
      e.type == UsfmElementType.SIDEBAR || e.type == UsfmElementType.NOTE)) &&
  spec_is_verse_para_incl sty stack &&
  (char_tags sty stack).all (fun tag =>
    tag.text_type == NOT_SPECIFIED || tag.text_type.VERSE_TEXT)

/-- The `incl` paragraph predicate with inclusion replaced by whole-set
equality (the amended reading). -/
def spec_is_verse_para_eq (sty : UsfmStylesheet) (stack : List UsfmParserElement) : Bool :=
  match nearest_paragraph_tag sty stack with
  | none => true
  | some tag => tag.text_type == VERSE_TEXT || tag.text_type == NOT_SPECIFIED

/-- The `incl` verse-text predicate with inclusion replaced by whole-set
equality (the amended reading). -/
def spec_is_verse_text_eq (sty : UsfmStylesheet) (stack : List UsfmParserElement) : Bool :=
  !(stack.any (fun e =>
      e.type == UsfmElementType.SIDEBAR || e.type == UsfmElementType.NOTE)) &&
  spec_is_verse_para_eq sty stack &&
  (char_tags sty stack).all (fun tag =>
    tag.text_type == VERSE_TEXT || tag.text_type == NOT_SPECIFIED)

/-! ## Tokenizer -/

inductive UsfmTokenType where
  | BOOK | CHAPTER | VERSE | TEXT | PARAGRAPH | CHARACTER | NOTE | END
  | MILESTONE | MILESTONE_END | ATTRIBUTE | UNKNOWN
  deriving DecidableEq, Repr

/-- `UsfmToken` (the unused `end_marker`/`attributes` fields are omitted;
no code path of the tokenizer or driver sets or reads them). -/
structure UsfmToken where
  type : UsfmTokenType
  marker : Option Str
  text : Option Str
  data : Option Str
  line_number : Nat
  column_number : Nat
  deriving DecidableEq, Repr

/-- Python `s.replace('\r\n', '\n')` (left-to-right, non-overlapping). -/
def replaceCRLF : Str → Str
  | '\r' :: '\n' :: rest => '\n' :: replaceCRLF rest
  | c :: rest => c :: replaceCRLF rest
  | [] => []

/-- Python `s.split('\n')`: always yields one more piece than separators. -/
def splitOnNl : Str → List Str
  | [] => [[]]
  | '\n' :: rest => [] :: splitOnNl rest
  | c :: rest =>
    match splitOnNl rest with
    | [] => [[c]]
    | h :: t => (c :: h) :: t

/-- One match of the token regex `\\([^\s\\]+)(\s+|$)|\\([*])`:
`is_end_star` is true for the second alternative (`group(3) == '*'`),
`marker` is `group(1)`, `len` the total match length. -/
structure MarkerMatch where
  is_end_star : Bool
  marker : Str
  len : Nat
  deriving DecidableEq, Repr

/-- Does the token regex match at the head of `l`?  The first alternative
needs a backslash, a nonempty run of non-whitespace non-backslash
characters, then whitespace (taken greedily) or end of line; when it fails
(the run is followed by a backslash) the second alternative matches a
literal `\*`. -/
def match_marker_at : Str → Option MarkerMatch
  | [] => none
  | c :: rest =>
    if c == '\\' then
      let run := rest.takeWhile (fun d => !isWs d && d != '\\')
      if run.isEmpty then none
      else
        match rest.drop run.length with
        | [] => some ⟨false, run, 1 + run.length⟩
        | d :: after =>
          if isWs d then
            some ⟨false, run, 1 + run.length + ((d :: after).takeWhile isWs).length⟩
          else if run.headD ' ' == '*' then some ⟨true, ['*'], 2⟩
          else none
    else none

/-- `regex.search` from the current position: the first offset at which the
token regex matches. -/
def find_marker : Str → Option (Nat × MarkerMatch)
  | [] => none
  | c :: rest =>
    match match_marker_at (c :: rest) with
    | some m => some (0, m)
    | none => (find_marker rest).map (fun om => (om.1 + 1, om.2))

/-- Marker-name classification, in the source's test order. -/
def classify_marker (marker : Str) : UsfmTokenType :=
  if marker == str "id" then UsfmTokenType.BOOK
  else if marker == str "c" then UsfmTokenType.CHAPTER
  else if marker == str "v" then UsfmTokenType.VERSE
  else if marker.headD ' ' == 'q' || marker.headD ' ' == 'p' || marker.headD ' ' == 'm' then
    UsfmTokenType.PARAGRAPH
  else if marker.getLastD ' ' == '*' then UsfmTokenType.END
  else UsfmTokenType.CHARACTER

/-- Build the token for a marker match.  `after` is the rest of the line
from `match.end()`; for Book/Chapter/Verse the first non-whitespace run in
it (`regex.search(r'\S+', line[end_pos:])`) becomes `data`.  Note that the
source computes an updated `end_pos` past the data but then resumes the
scan from `match.end()`, so the data is *not* removed from the line. -/
def make_marker_token (ln col : Nat) (m : MarkerMatch) (after : Str) : UsfmToken :=
  if m.is_end_star then ⟨UsfmTokenType.END, some ['*'], none, none, ln, col⟩
  else
    let tt := classify_marker m.marker
    let data :=
      if tt == UsfmTokenType.CHAPTER || tt == UsfmTokenType.VERSE ||
         tt == UsfmTokenType.BOOK then
        let d := (after.dropWhile isWs).takeWhile (fun c => !isWs c)
        if d.isEmpty then none else some d
      else none
    ⟨tt, some m.marker, none, data, ln, col⟩

/-- The `while pos < line_length` loop of `_tokenize_line`.  `pos` is the
absolute column, `rem` the suffix `line[pos:]`.  Fuel models the loop;
`none` means the fuel ran out (shown never to happen). -/
def line_loop (ln : Nat) : Nat → Nat → Str → Option (List UsfmToken)
  | 0, _, _ => none
  | _ + 1, _, [] => some []
  | fuel + 1, pos, c :: rest =>
    match find_marker (c :: rest) with
    | some (off, m) =>
      let rem := c :: rest
      let pre :=
        if 0 < off then
          [(⟨UsfmTokenType.TEXT, none, some (rem.take off), none, ln, pos⟩ : UsfmToken)]
        else []
      let tok := make_marker_token ln (pos + off) m (rem.drop (off + m.len))
      (line_loop ln fuel (pos + off + m.len) (rem.drop (off + m.len))).map
        (fun ts => pre ++ tok :: ts)
    | none => some [⟨UsfmTokenType.TEXT, none, some (c :: rest), none, ln, pos⟩]

/-- `_tokenize_line`: the scan loop plus the synthetic end-of-line `Text`
token carrying a newline. -/
def tokenize_line (ln : Nat) (line : Str) : Option (List UsfmToken) :=
  (line_loop ln (line.length + 1) 0 line).map
    (fun ts => ts ++ [⟨UsfmTokenType.TEXT, none, some ['\n'], none, ln, line.length⟩])

def tokenize_lines : Nat → List Str → Option (List UsfmToken)
  | _, [] => some []
  | ln, l :: rest =>
    match tokenize_line ln l, tokenize_lines (ln + 1) rest with
    | some a, some b => some (a ++ b)
    | _, _ => none

/-- `UsfmTokenizer.tokenize`, with loop divergence modelled as `none`. -/
def tokenize_opt (text : Str) : Option (List UsfmToken) :=
  tokenize_lines 1 (splitOnNl (replaceCRLF text))

def tokenize (text : Str) : List UsfmToken := (tokenize_opt text).getD []

/-! ## Segmentation driver (`UsfmParser.parse`) -/

/-- Python truthiness of an `Optional[str]`: not `None` and nonempty. -/
def opt_nonempty : Option Str → Bool
  | some (_ :: _) => true
  | _ => false

/-- Python `dict` assignment `m[k] = v`: overwrite in place if the key is
present, else append. -/
def dict_set (m : List (Str × Str)) (k v : Str) : List (Str × Str) :=
  if m.any (fun kv => kv.1 == k) then
    m.map (fun kv => if kv.1 == k then (k, v) else kv)
  else m ++ [(k, v)]

/-- The `f"{current_book} {current_chapter}:{current_verse}"` key. -/
def verse_key (b c v : Str) : Str := b ++ ' ' :: (c ++ ':' :: v)

/-- Driver state.  The source also refreshes a `VerseRef` object in the
parser state at each Verse token; it is written and never read, so it is
not modelled.  The element stack is carried (the loop never touches it). -/
structure ParseSt where
  verses : List (Str × Str)
  current_book : Str
  current_chapter : Str
  current_verse : Str
  current_verse_text : Str
  stack : List UsfmParserElement
  deriving DecidableEq, Repr

def init_state : ParseSt := ⟨[], [], [], [], [], []⟩

/-- The characters skipped after the verse number: whitespace or `.,;:`. -/
def isWsOrPunct (c : Char) : Bool :=
  isWs c || c == '.' || c == ',' || c == ';' || c == ':'

/-- One iteration of the `for i, token in enumerate(tokens)` loop body.
`prev` is `tokens[i-1] if i > 0 else None`. -/
def step (sty : UsfmStylesheet) (prev : Option UsfmToken) (t : UsfmToken) (st : ParseSt) :
    ParseSt :=
  if t.type == UsfmTokenType.BOOK && opt_nonempty t.data then
    { st with current_book := t.data.getD [] }
  else if t.type == UsfmTokenType.CHAPTER && opt_nonempty t.data then
    { st with current_chapter := t.data.getD [], current_verse := [],
              current_verse_text := [] }
  else if t.type == UsfmTokenType.VERSE && opt_nonempty t.data then
    let verses1 :=
      if !st.current_book.isEmpty && !st.current_chapter.isEmpty &&
         !st.current_verse.isEmpty then
        let trimmed := stripWs st.current_verse_text
        if 0 < trimmed.length then
          dict_set st.verses
            (verse_key st.current_book st.current_chapter st.current_verse) trimmed
        else st.verses
      else st.verses
    { st with verses := verses1, current_verse := t.data.getD [],
              current_verse_text := [] }
  else if t.type == UsfmTokenType.TEXT && is_verse_text sty st.stack then
    if !st.current_book.isEmpty && !st.current_chapter.isEmpty &&
       !st.current_verse.isEmpty then
      let suppress :=
        match prev, t.text with
        | some p, some txt =>
          p.type == UsfmTokenType.VERSE && !txt.isEmpty && !(stripWs txt).isEmpty &&
          st.current_verse.isPrefixOf (stripWs txt)
        | _, _ => false
      if suppress then
        let text := stripWs (t.text.getD [])
        if st.current_verse.isPrefixOf text then
          let tail := (text.drop st.current_verse.length).dropWhile isWsOrPunct
          { st with current_verse_text := st.current_verse_text ++ tail ++ [' '] }
        else
          { st with current_verse_text := st.current_verse_text ++ t.text.getD [] }
      else
        { st with current_verse_text := st.current_verse_text ++ t.text.getD [] }
    else st
  else st

/-- The token loop; `prev` carries `tokens[i-1]`. -/
def driver_loop (sty : UsfmStylesheet) :
    Option UsfmToken → List UsfmToken → ParseSt → ParseSt
  | _, [], st => st
  | prev, t :: rest, st => driver_loop sty (some t) rest (step sty prev t st)

/-- The "Add the last verse" block after the loop. -/
def add_last_verse (st : ParseSt) : List (Str × Str) :=
  if !st.current_book.isEmpty && !st.current_chapter.isEmpty &&
     !st.current_verse.isEmpty then
    let trimmed := stripWs st.current_verse_text
    if 0 < trimmed.length then
      dict_set st.verses
        (verse_key st.current_book st.current_chapter st.current_verse) trimmed
    else st.verses
  else st.verses

/-- The final per-value cleanup loop. -/
def clean_verses (m : List (Str × Str)) : List (Str × Str) :=
  m.map (fun kv => (kv.1, clean_text kv.2))

def parse_state (text : Str) : ParseSt :=
  driver_loop default_stylesheet none (tokenize text) init_state

/-- `UsfmParser.parse`. -/
def parse (text : Str) : List (Str × Str) :=
  clean_verses (add_last_verse (parse_state text))

/-! ## Termination of the tokenizer scan loop -/

theorem match_marker_at_len_pos (l : Str) (m : MarkerMatch)
    (h : match_marker_at l = some m) : 1 ≤ m.len := by
  cases l with
  | nil => simp [match_marker_at] at h
  | cons c rest =>
    simp only [match_marker_at] at h
    split at h
    · split at h
      · simp at h
      · split at h
        · cases h
          exact Nat.le_add_right 1 _
        · split at h
          · cases h
            exact Nat.le_trans (Nat.le_add_right 1 _) (Nat.le_add_right _ _)
          · split at h
            · cases h
              exact Nat.le_add_right 1 1
            · simp at h
    · simp at h

theorem find_marker_len_pos : ∀ (l : Str) (off : Nat) (m : MarkerMatch),
    find_marker l = some (off, m) → 1 ≤ m.len := by
  intro l
  induction l with
  | nil => intro off m h; simp [find_marker] at h
  | cons c rest ih =>
    intro off m h
    simp only [find_marker] at h
    split at h
    · rename_i m' heq
      cases h
      exact match_marker_at_len_pos _ _ heq
    · rw [Option.map_eq_some'] at h
      obtain ⟨⟨off', m'⟩, hf, hfe⟩ := h
      cases hfe
      exact ih _ _ hf

theorem line_loop_isSome (ln : Nat) : ∀ (fuel pos : Nat) (rem : Str),
    rem.length < fuel → (line_loop ln fuel pos rem).isSome = true := by
  intro fuel
  induction fuel with
  | zero => intro pos rem h; exact absurd h (Nat.not_lt_zero _)
  | succ f ih =>
    intro pos rem h
    cases rem with
    | nil => simp [line_loop]
    | cons c rest =>
      simp only [line_loop]
      cases hf : find_marker (c :: rest) with
      | none => simp
      | some om =>
        obtain ⟨off, m⟩ := om
        have hlen : 1 ≤ m.len := find_marker_len_pos _ _ _ hf
        have hrec : ((c :: rest).drop (off + m.len)).length < f := by
          rw [List.length_drop]
          simp only [List.length_cons] at h ⊢
          omega
        rcases Option.isSome_iff_exists.mp (ih (pos + off + m.len) _ hrec) with ⟨v, hv⟩
        simp [hv]

theorem tokenize_line_isSome (ln : Nat) (line : Str) :
    (tokenize_line ln line).isSome = true := by
  have h := line_loop_isSome ln (line.length + 1) 0 line (Nat.lt_succ_self _)
  unfold tokenize_line
  rcases Option.isSome_iff_exists.mp h with ⟨v, hv⟩
  rw [hv]
  rfl

theorem tokenize_lines_isSome : ∀ (ls : List Str) (ln : Nat),
    (tokenize_lines ln ls).isSome = true := by
  intro ls
  induction ls with
  | nil => intro ln; rfl
  | cons l rest ih =>
    intro ln
    simp only [tokenize_lines]
    rcases Option.isSome_iff_exists.mp (tokenize_line_isSome ln l) with ⟨a, ha⟩
    rcases Option.isSome_iff_exists.mp (ih (ln + 1)) with ⟨b, hb⟩
    rw [ha, hb]
    rfl

theorem tokenize_opt_isSome (text : Str) : (tokenize_opt text).isSome = true :=
  tokenize_lines_isSome _ 1

/-! ## The driver never touches the element stack -/

theorem step_stack (sty : UsfmStylesheet) (prev : Option UsfmToken) (t : UsfmToken)
    (st : ParseSt) : (step sty prev t st).stack = st.stack := by
  simp only [step]
  repeat' split
  all_goals rfl

theorem driver_loop_stack (sty : UsfmStylesheet) : ∀ (ts : List UsfmToken)
    (prev : Option UsfmToken) (st : ParseSt),
    (driver_loop sty prev ts st).stack = st.stack := by
  intro ts
  induction ts with
  | nil => intro prev st; rfl
  | cons t rest ih =>
    intro prev st
    simp only [driver_loop]
    rw [ih, step_stack]

/-! ## Whitespace-normalization lemmas -/

/-- Adjacent characters are not both whitespace. -/
def adjNoWs (a b : Char) : Prop := ¬(isWs a = true ∧ isWs b = true)

/-- Boolean check: the string has no run of two or more whitespace characters. -/
def no_double_ws : Str → Bool
  | [] => true
  | [_] => true
  | a :: b :: rest => !(isWs a && isWs b) && no_double_ws (b :: rest)

theorem adjNoWs_iff (a b : Char) : adjNoWs a b ↔ (!(isWs a && isWs b)) = true := by
  cases hA : isWs a <;> cases hB : isWs b <;> simp [adjNoWs, hA, hB]

theorem no_double_ws_iff (l : Str) : no_double_ws l = true ↔ List.Chain' adjNoWs l := by
  induction l with
  | nil => simp [no_double_ws]
  | cons a t ih =>
    cases t with
    | nil => simp [no_double_ws]
    | cons b rest =>
      simp only [no_double_ws, Bool.and_eq_true, List.chain'_cons, ih, adjNoWs_iff]

theorem collapseWsAux_head_true : ∀ (cs : Str) (c : Char),
    (collapseWsAux true cs).head? = some c → isWs c = false := by
  intro cs
  induction cs with
  | nil => intro c h; simp [collapseWsAux] at h
  | cons d t ih =>
    intro c h
    cases hd : isWs d
    · simp only [collapseWsAux, hd] at h
      simp only [Bool.false_eq_true, if_false, List.head?] at h
      cases h
      exact hd
    · simp only [collapseWsAux, hd, if_true] at h
      exact ih c h

theorem chain'_collapseWsAux : ∀ (cs : Str) (b : Bool),
    List.Chain' adjNoWs (collapseWsAux b cs) := by
  intro cs
  induction cs with
  | nil => intro b; simp [collapseWsAux]
  | cons c t ih =>
    intro b
    cases hc : isWs c
    · simp only [collapseWsAux, hc, Bool.false_eq_true, if_false]
      rw [List.chain'_cons']
      refine ⟨fun y _ => ?_, ih false⟩
      intro hcon
      rw [hc] at hcon
      exact absurd hcon.1 (by simp)
    · cases b
      · simp only [collapseWsAux, hc, if_true, Bool.false_eq_true, if_false]
        rw [List.chain'_cons']
        refine ⟨fun y hy => ?_, ih true⟩
        have hyw : isWs y = false := collapseWsAux_head_true t y hy
        intro hcon
        rw [hyw] at hcon
        exact absurd hcon.2 (by simp)
      · simp only [collapseWsAux, hc, if_true]
        exact ih true

theorem chain'_dropWhile {l : Str} (p : Char → Bool) (h : List.Chain' adjNoWs l) :
    List.Chain' adjNoWs (l.dropWhile p) :=
  h.suffix (List.dropWhile_suffix p)

theorem chain'_reverse_adj {l : Str} (h : List.Chain' adjNoWs l) :
    List.Chain' adjNoWs l.reverse := by
  rw [List.chain'_reverse]
  exact h.imp (fun a b hab hc => hab ⟨hc.2, hc.1⟩)

theorem chain'_stripWs {l : Str} (h : List.Chain' adjNoWs l) :
    List.Chain' adjNoWs (stripWs l) :=
  chain'_reverse_adj (chain'_dropWhile isWs (chain'_reverse_adj (chain'_dropWhile isWs h)))

theorem head?_dropWhile_false (p : Char → Bool) (l : Str) (c : Char)
    (h : (l.dropWhile p).head? = some c) : p c = false := by
  have hm := List.head?_dropWhile_not p l
  rw [h] at hm
  exact hm

theorem dropWhile_append_singleton (p : Char → Bool) (xs : Str) (a : Char)
    (ha : p a = false) : (xs ++ [a]).dropWhile p = xs.dropWhile p ++ [a] := by
  rw [List.dropWhile_append]
  split
  · rename_i he
    rw [List.isEmpty_iff.mp he]
    simp [List.dropWhile_cons, ha]
  · rfl

theorem stripWs_cons (l : Str) (a : Char) (t : Str)
    (h : l.dropWhile isWs = a :: t) :
    stripWs l = a :: (t.reverse.dropWhile isWs).reverse ∧ isWs a = false := by
  have ha : isWs a = false := head?_dropWhile_false isWs l a (by rw [h]; rfl)
  refine ⟨?_, ha⟩
  unfold stripWs
  rw [h, List.reverse_cons, dropWhile_append_singleton isWs _ _ ha, List.reverse_append]
  rfl

theorem stripWs_head_not_ws (l : Str) (c : Char)
    (h : (stripWs l).head? = some c) : isWs c = false := by
  cases hd : l.dropWhile isWs with
  | nil =>
    unfold stripWs at h
    rw [hd] at h
    simp at h
  | cons a t =>
    obtain ⟨he, ha⟩ := stripWs_cons l a t hd
    rw [he] at h
    simp only [List.head?] at h
    cases h
    exact ha

theorem stripWs_getLast_not_ws (l : Str) (c : Char)
    (h : (stripWs l).getLast? = some c) : isWs c = false := by
  unfold stripWs at h
  rw [List.getLast?_reverse] at h
  exact head?_dropWhile_false isWs _ c h

theorem mem_collapseWsAux (c : Char) (hc : isWs c = false) :
    ∀ (l : Str) (b : Bool), c ∈ l → c ∈ collapseWsAux b l := by
  intro l
  induction l with
  | nil => intro b h; simp at h
  | cons d t ih =>
    intro b h
    cases hd : isWs d
    · simp only [collapseWsAux, hd, Bool.false_eq_true, if_false]
      rcases List.mem_cons.mp h with h1 | h2
      · subst h1; exact List.mem_cons_self _ _
      · exact List.mem_cons_of_mem _ (ih false h2)
    · have hne : c ≠ d := by
        intro he
        rw [he, hd] at hc
        simp at hc
      have h2 : c ∈ t := by
        rcases List.mem_cons.mp h with h1 | h2
        · exact absurd h1 hne
        · exact h2
      cases b
      · simp only [collapseWsAux, hd, if_true, Bool.false_eq_true, if_false]
        exact List.mem_cons_of_mem _ (ih true h2)
      · simp only [collapseWsAux, hd, if_true]
        exact ih true h2

theorem collapseWsAux_ws_mem : ∀ (l : Str) (b : Bool) (c : Char),
    c ∈ collapseWsAux b l → isWs c = true → c = ' ' := by
  intro l
  induction l with
  | nil => intro b c h _; simp [collapseWsAux] at h
  | cons d t ih =>
    intro b c h hw
    cases hd : isWs d
    · simp only [collapseWsAux, hd, Bool.false_eq_true, if_false] at h
      rcases List.mem_cons.mp h with h1 | h2
      · subst h1; rw [hd] at hw; simp at hw
      · exact ih false c h2 hw
    · cases b
      · simp only [collapseWsAux, hd, if_true, Bool.false_eq_true, if_false] at h
        rcases List.mem_cons.mp h with h1 | h2
        · exact h1
        · exact ih true c h2 hw
      · simp only [collapseWsAux, hd, if_true] at h
        exact ih true c h hw

theorem mem_of_mem_stripWs {l : Str} {c : Char} (h : c ∈ stripWs l) : c ∈ l := by
  unfold stripWs at h
  rw [List.mem_reverse] at h
  have h1 := (List.dropWhile_sublist isWs).subset h
  rw [List.mem_reverse] at h1
  exact (List.dropWhile_sublist isWs).subset h1

theorem stripWs_ne_nil {l : Str} (h : ∃ c ∈ l, isWs c = false) : stripWs l ≠ [] := by
  obtain ⟨c, hc, hcw⟩ := h
  cases hd : l.dropWhile isWs with
  | nil =>
    have := List.dropWhile_eq_nil_iff.mp hd c hc
    rw [hcw] at this
    simp at this
  | cons a t =>
    obtain ⟨he, _⟩ := stripWs_cons l a t hd
    rw [he]
    simp

theorem clean_text_ne_nil {l : Str} (h : ∃ c ∈ l, isWs c = false) :
    clean_text l ≠ [] := by
  obtain ⟨c, hc, hcw⟩ := h
  exact stripWs_ne_nil ⟨c, mem_collapseWsAux c hcw l false hc, hcw⟩

theorem clean_text_chain (l : Str) : List.Chain' adjNoWs (clean_text l) :=
  chain'_stripWs (chain'_collapseWsAux l false)

theorem clean_text_no_double_ws (l : Str) : no_double_ws (clean_text l) = true :=
  (no_double_ws_iff _).mpr (clean_text_chain l)

theorem clean_text_head (l : Str) :
    Option.all (fun c => !isWs c) (clean_text l).head? = true := by
  cases hh : (clean_text l).head? with
  | none => rfl
  | some c =>
    have := stripWs_head_not_ws (collapseWs l) c hh
    simp [Option.all, this]

theorem clean_text_getLast (l : Str) :
    Option.all (fun c => !isWs c) (clean_text l).getLast? = true := by
  cases hh : (clean_text l).getLast? with
  | none => rfl
  | some c =>
    have := stripWs_getLast_not_ws (collapseWs l) c hh
    simp [Option.all, this]

/-! ## Word-sequence lemmas: normalization is determined by the words -/

theorem wordsAux_acc_ne_nil : ∀ (x : Str) (a : Char) (t : Str),
    wordsAux (a :: t) x ≠ [] := by
  intro x
  induction x with
  | nil => intro a t; simp [wordsAux]
  | cons c cs ih =>
    intro a t
    cases hc : isWs c
    · simp only [wordsAux, hc, Bool.false_eq_true, if_false]
      exact ih c (a :: t)
    · simp only [wordsAux, hc, if_true, List.isEmpty_cons, Bool.false_eq_true, if_false]
      simp

theorem join_words_cons (w : Str) (W : List Str) (h : W ≠ []) :
    join_words (w :: W) = w ++ ' ' :: join_words W := by
  cases W with
  | nil => exact absurd rfl h
  | cons v ws => rfl

theorem join_wordsAux : ∀ (x : Str),
    List.Chain' adjNoWs x → (∀ c ∈ x, isWs c = true → c = ' ') →
    Option.all (fun c => !isWs c) x.getLast? = true →
    ((∀ (a : Char) (t : Str),
        join_words (wordsAux (a :: t) x) = (a :: t).reverse ++ x) ∧
     (Option.all (fun c => !isWs c) x.head? = true →
        join_words (wordsAux [] x) = x)) := by
  intro x
  induction x with
  | nil =>
    intro _ _ _
    constructor
    · intro a t
      simp [wordsAux, join_words]
    · intro _
      rfl
  | cons c cs ih =>
    intro hchain hmem hlast
    have hmem' : ∀ d ∈ cs, isWs d = true → d = ' ' :=
      fun d hd => hmem d (List.mem_cons_of_mem _ hd)
    have hlast' : Option.all (fun c => !isWs c) cs.getLast? = true := by
      cases cs with
      | nil => rfl
      | cons d cs' => rw [List.getLast?_cons_cons] at hlast; exact hlast
    have ihcs := ih hchain.tail hmem' hlast'
    constructor
    · intro a t
      cases hc : isWs c
      · simp only [wordsAux, hc, Bool.false_eq_true, if_false]
        rw [ihcs.1 c (a :: t)]
        simp
      · have hcsp : c = ' ' := hmem c (List.mem_cons_self c cs) hc
        cases cs with
        | nil =>
          rw [show (c :: ([] : Str)).getLast? = some c from rfl] at hlast
          simp [hc] at hlast
        | cons d cs' =>
          have hd : isWs d = false := by
            have hadj : adjNoWs c d := (List.chain'_cons.mp hchain).1
            cases hdd : isWs d
            · rfl
            · exact absurd ⟨hc, hdd⟩ hadj
          simp only [wordsAux, hc, hd, if_true, List.isEmpty_cons, Bool.false_eq_true,
            if_false]
          have hne : wordsAux [d] cs' ≠ [] := wordsAux_acc_ne_nil cs' d []
          rw [join_words_cons _ _ hne]
          have hj := ihcs.2 (by simp [hd])
          have hW : wordsAux [] (d :: cs') = wordsAux [d] cs' := by
            simp [wordsAux, hd]
          rw [hW] at hj
          rw [hj, hcsp]
    · intro hhead
      have hc : isWs c = false := by
        simp only [List.head?, Option.all] at hhead
        cases hcc : isWs c
        · rfl
        · rw [hcc] at hhead; simp at hhead
      simp only [wordsAux, hc, Bool.false_eq_true, if_false]
      rw [ihcs.1 c []]
      rfl

theorem wordsAux_all_ws : ∀ (t : Str), (∀ c ∈ t, isWs c = true) →
    ∀ (acc : Str), wordsAux acc t = wordsAux acc [] := by
  intro t
  induction t with
  | nil => intro _ acc; rfl
  | cons d t' ih =>
    intro h acc
    have hd : isWs d = true := h d (List.mem_cons_self d t')
    have ih' := ih (fun c hc => h c (List.mem_cons_of_mem _ hc))
    simp only [wordsAux, hd, if_true]
    cases acc with
    | nil =>
      simp only [List.isEmpty_nil, if_true]
      rw [ih' []]
      rfl
    | cons a as =>
      simp only [List.isEmpty_cons, Bool.false_eq_true, if_false]
      rw [ih' []]
      rfl

theorem wordsAux_append_ws : ∀ (m t : Str), (∀ c ∈ t, isWs c = true) →
    ∀ (acc : Str), wordsAux acc (m ++ t) = wordsAux acc m := by
  intro m
  induction m with
  | nil =>
    intro t h acc
    rw [List.nil_append]
    exact wordsAux_all_ws t h acc
  | cons c m' ih =>
    intro t h acc
    rw [List.cons_append]
    cases hc : isWs c
    · simp only [wordsAux, hc, Bool.false_eq_true, if_false]
      exact ih t h (c :: acc)
    · simp only [wordsAux, hc, if_true]
      cases acc with
      | nil =>
        simp only [List.isEmpty_nil, if_true]
        rw [ih t h []]
      | cons a as =>
        simp only [List.isEmpty_cons, Bool.false_eq_true, if_false]
        rw [ih t h []]

theorem words_of_lstrip (l : Str) : words_of (l.dropWhile isWs) = words_of l := by
  induction l with
  | nil => rfl
  | cons c cs ih =>
    cases hc : isWs c
    · rw [List.dropWhile_cons_of_neg (by rw [hc]; exact Bool.false_ne_true)]
    · rw [List.dropWhile_cons_of_pos hc]
      rw [ih]
      unfold words_of
      simp [wordsAux, hc]

theorem words_of_stripWs (l : Str) : words_of (stripWs l) = words_of l := by
  have key : ∀ y : Str, words_of ((y.reverse.dropWhile isWs).reverse) = words_of y := by
    intro y
    have hdecomp : y = (y.reverse.dropWhile isWs).reverse ++
        (y.reverse.takeWhile isWs).reverse := by
      conv_lhs => rw [← List.reverse_reverse y,
        ← List.takeWhile_append_dropWhile isWs y.reverse]
      rw [List.reverse_append]
    have hws : ∀ c ∈ (y.reverse.takeWhile isWs).reverse, isWs c = true := by
      intro c hc
      rw [List.mem_reverse] at hc
      exact List.mem_takeWhile_imp hc
    conv_rhs => rw [hdecomp]
    exact (wordsAux_append_ws _ _ hws []).symm
  unfold stripWs
  rw [key (l.dropWhile isWs)]
  exact words_of_lstrip l

theorem words_of_collapse : ∀ (cs : Str),
    (wordsAux [] (collapseWsAux true cs) = wordsAux [] cs) ∧
    (∀ acc, wordsAux acc (collapseWsAux false cs) = wordsAux acc cs) := by
  intro cs
  induction cs with
  | nil => exact ⟨rfl, fun acc => rfl⟩
  | cons c t ih =>
    cases hc : isWs c
    · constructor
      · simp only [collapseWsAux, hc, Bool.false_eq_true, if_false]
        simp only [wordsAux, hc, Bool.false_eq_true, if_false]
        exact ih.2 [c]
      · intro acc
        simp only [collapseWsAux, hc, Bool.false_eq_true, if_false]
        simp only [wordsAux, hc, Bool.false_eq_true, if_false]
        exact ih.2 (c :: acc)
    · constructor
      · simp only [collapseWsAux, hc, if_true]
        simp only [wordsAux, hc, if_true, List.isEmpty_nil]
        exact ih.1
      · intro acc
        simp only [collapseWsAux, hc, if_true]
        have hsp : isWs ' ' = true := rfl
        simp only [wordsAux, hsp, hc, if_true]
        cases acc with
        | nil =>
          simp only [List.isEmpty_nil, if_true]
          exact ih.1
        | cons a as =>
          simp only [List.isEmpty_cons, Bool.false_eq_true, if_false]
          rw [ih.1]

theorem words_of_clean_text (l : Str) : words_of (clean_text l) = words_of l := by
  unfold clean_text
  rw [words_of_stripWs]
  exact (words_of_collapse l).2 []

theorem clean_text_ws_mem (l : Str) :
    ∀ c ∈ clean_text l, isWs c = true → c = ' ' := by
  intro c hc hw
  exact collapseWsAux_ws_mem l false c (mem_of_mem_stripWs hc) hw

/-- The normalized text is exactly the words joined by single spaces. -/
theorem clean_text_eq_join_words (l : Str) :
    clean_text l = join_words (words_of l) := by
  have h := join_wordsAux (clean_text l) (clean_text_chain l) (clean_text_ws_mem l)
    (clean_text_getLast l)
  have h2 := h.2 (clean_text_head l)
  rw [← words_of_clean_text l]
  exact h2.symm

/-! ## Driver map lemmas -/

theorem mem_dict_set {m : List (Str × Str)} {k v : Str} {kv : Str × Str}
    (h : kv ∈ dict_set m k v) : kv ∈ m ∨ kv = (k, v) := by
  unfold dict_set at h
  split at h
  · rcases List.mem_map.mp h with ⟨x, hx, he⟩
    by_cases hxk : (x.1 == k) = true
    · rw [if_pos hxk] at he
      right
      exact he.symm
    · rw [if_neg hxk] at he
      left
      rw [← he]
      exact hx
  · rcases List.mem_append.mp h with h1 | h2
    · left; exact h1
    · right; simpa using h2

theorem step_verses_spec (sty : UsfmStylesheet) (prev : Option UsfmToken)
    (t : UsfmToken) (st : ParseSt) :
    (step sty prev t st).verses = st.verses ∨
    ((t.type == UsfmTokenType.VERSE && opt_nonempty t.data) = true ∧
      (step sty prev t st).verses =
        dict_set st.verses
          (verse_key st.current_book st.current_chapter st.current_verse)
          (stripWs st.current_verse_text) ∧
      0 < (stripWs st.current_verse_text).length) := by
  simp only [step]
  repeat' split
  all_goals first
    | (left; rfl)
    | (right; exact ⟨by assumption, rfl, by assumption⟩)

theorem step_chapter (sty : UsfmStylesheet) (prev : Option UsfmToken) (t : UsfmToken)
    (st : ParseSt) (ht : t.type = UsfmTokenType.CHAPTER)
    (hd : opt_nonempty t.data = true) :
    step sty prev t st =
      { st with current_chapter := t.data.getD [], current_verse := [],
                current_verse_text := [] } := by
  have e1 : (UsfmTokenType.CHAPTER == UsfmTokenType.BOOK) = false := rfl
  have e2 : (UsfmTokenType.CHAPTER == UsfmTokenType.CHAPTER) = true := rfl
  simp [step, ht, hd, e1, e2]

def verses_has_content (m : List (Str × Str)) : Prop :=
  ∀ kv ∈ m, ∃ c ∈ kv.2, isWs c = false

theorem stripWs_pos_content {x : Str} (h : 0 < (stripWs x).length) :
    ∃ c ∈ stripWs x, isWs c = false := by
  cases hs : stripWs x with
  | nil => rw [hs] at h; simp at h
  | cons a t =>
    exact ⟨a, List.mem_cons_self a t, stripWs_head_not_ws x a (by rw [hs]; rfl)⟩

theorem step_content (sty : UsfmStylesheet) (prev : Option UsfmToken) (t : UsfmToken)
    (st : ParseSt) (h : verses_has_content st.verses) :
    verses_has_content (step sty prev t st).verses := by
  rcases step_verses_spec sty prev t st with he | ⟨_, he, hpos⟩
  · rw [he]; exact h
  · rw [he]
    intro kv hkv
    rcases mem_dict_set hkv with h1 | h2
    · exact h kv h1
    · rw [h2]
      exact stripWs_pos_content hpos

theorem driver_content (sty : UsfmStylesheet) : ∀ (ts : List UsfmToken)
    (prev : Option UsfmToken) (st : ParseSt), verses_has_content st.verses →
    verses_has_content (driver_loop sty prev ts st).verses := by
  intro ts
  induction ts with
  | nil => intro prev st h; exact h
  | cons t rest ih =>
    intro prev st h
    exact ih (some t) _ (step_content sty prev t st h)

theorem add_last_verse_spec (st : ParseSt) :
    add_last_verse st = st.verses ∨
    (add_last_verse st =
        dict_set st.verses
          (verse_key st.current_book st.current_chapter st.current_verse)
          (stripWs st.current_verse_text) ∧
      0 < (stripWs st.current_verse_text).length) := by
  simp only [add_last_verse]
  repeat' split
  all_goals first
    | (left; rfl)
    | (right; exact ⟨rfl, by assumption⟩)

theorem add_last_content (st : ParseSt) (h : verses_has_content st.verses) :
    verses_has_content (add_last_verse st) := by
  rcases add_last_verse_spec st with he | ⟨he, hpos⟩
  · rw [he]; exact h
  · rw [he]
    intro kv hkv
    rcases mem_dict_set hkv with h1 | h2
    · exact h kv h1
    · rw [h2]
      exact stripWs_pos_content hpos

theorem parse_content (text : Str) :
    verses_has_content (add_last_verse (parse_state text)) :=
  add_last_content _
    (driver_content _ _ none init_state (by intro kv hkv; simp [init_state] at hkv))

theorem add_last_verse_empty (st : ParseSt) (h : stripWs st.current_verse_text = []) :
    add_last_verse st = st.verses := by
  rcases add_last_verse_spec st with he | ⟨_, hpos⟩
  · exact he
  · rw [h] at hpos
    simp at hpos

theorem step_verses_empty (sty : UsfmStylesheet) (prev : Option UsfmToken)
    (t : UsfmToken) (st : ParseSt) (h : stripWs st.current_verse_text = []) :
    (step sty prev t st).verses = st.verses := by
  rcases step_verses_spec sty prev t st with he | ⟨_, _, hpos⟩
  · exact he
  · rw [h] at hpos
    simp at hpos

/-! ## Predicate refinement lemmas -/

theorem para_tag_eq_nearest (sty : UsfmStylesheet) (stack : List UsfmParserElement)
    (hm : ∀ e ∈ stack, e.marker ≠ none) :
    para_tag sty stack = nearest_paragraph_tag sty stack := by
  cases hf : stack.reverse.find? (fun e =>
      e.type == UsfmElementType.PARA || e.type == UsfmElementType.BOOK ||
      e.type == UsfmElementType.ROW || e.type == UsfmElementType.SIDEBAR) with
  | none => simp [para_tag, nearest_paragraph_tag, hf]
  | some e =>
    have he : e ∈ stack := List.mem_reverse.mp (List.mem_of_find?_eq_some hf)
    cases hme : e.marker with
    | none => exact absurd hme (hm e he)
    | some m => simp [para_tag, nearest_paragraph_tag, hf, hme]

theorem is_verse_para_eq_spec (sty : UsfmStylesheet) (stack : List UsfmParserElement)
    (hm : ∀ e ∈ stack, e.marker ≠ none) :
    is_verse_para sty stack = spec_is_verse_para_eq sty stack := by
  unfold is_verse_para spec_is_verse_para_eq
  rw [para_tag_eq_nearest sty stack hm]

theorem is_verse_text_eq_spec (sty : UsfmStylesheet) (stack : List UsfmParserElement)
    (hm : ∀ e ∈ stack, e.marker ≠ none) :
    is_verse_text sty stack = spec_is_verse_text_eq sty stack := by
  have hp := is_verse_para_eq_spec sty stack hm
  unfold is_verse_text spec_is_verse_text_eq
  rw [← hp]
  cases hany : stack.any (fun e =>
      e.type == UsfmElementType.SIDEBAR || e.type == UsfmElementType.NOTE)
  · simp only [hany, Bool.false_eq_true, if_false, Bool.not_false, Bool.true_and]
    cases hpv : is_verse_para sty stack
    · simp
    · simp
  · simp [hany]

/-- A stylesheet carrying a tag whose text-type flag set strictly contains
VerseText (VerseText together with Title) on marker `w`. -/
def cex_stylesheet : UsfmStylesheet := fun m =>
  if m == str "w" then ⟨m, { NOT_SPECIFIED with VERSE_TEXT := true, TITLE := true }⟩
  else ⟨m, NOT_SPECIFIED⟩

def cex_para_stack : List UsfmParserElement :=
  [⟨UsfmElementType.PARA, some (str "w")⟩]

def cex_char_stack : List UsfmParserElement :=
  [⟨UsfmElementType.CHAR, some (str "w")⟩]

/-! ## Claim theorems -/

/-- C1: the claim expects `{"GEN 1:1": "In the beginning."}` for the minimal
single-line input, but the tokenizer resumes scanning at `match.end()`
(the computed `end_pos` past the data is never used) and its data regex
`\S+` runs into the following marker, so `parse` returns the key
`"GEN\c 1\v:1"` instead.  This theorem evaluates the embedded `parse` at the
claim's input, exhibiting the divergence. -/
theorem claim_C1_failing_eval :
    parse (str "\\id GEN\\c 1\\v 1 In the beginning.") =
      [(str "GEN\\c 1\\v:1", str "In the beginning.")] := by decide

/-- C2: the claim says the data run after a Book/Chapter/Verse marker is
consumed so its characters never reappear in a following Text token.  In the
code `pos = match.end()` ignores the computed `end_pos`, so for `\v 1 hello`
the Verse token's data `1` reappears as the prefix of the next Text token
`1 hello`.  This theorem evaluates the embedded tokenizer at that input. -/
theorem claim_C2_failing_eval :
    tokenize (str "\\v 1 hello") =
      [⟨UsfmTokenType.VERSE, some (str "v"), none, some (str "1"), 1, 0⟩,
       ⟨UsfmTokenType.TEXT, none, some (str "1 hello"), none, 1, 3⟩,
       ⟨UsfmTokenType.TEXT, none, some (str "\n"), none, 1, 10⟩] ∧
    List.isPrefixOf (str "1") (str "1 hello") = true := by decide

/-- C3: the claim (and the spec's test) expect the body for
`\v 12 12 He said...` to start with `He said...`.  Because the tokenizer does
not consume the data run, the Text token after the Verse token is
`12 12 He said...`; the echo-suppression strips only the first `12`, so the
stored body is `12 He said...`.  This theorem evaluates the embedded `parse`
at the claim's input. -/
theorem claim_C3_failing_eval :
    parse (str "\\id GEN\n\\c 1\n\\v 12 12 He said...") =
      [(str "GEN 1:12", str "12 He said...")] := by decide

/-- C4: the segmentation loop never changes the element stack (no step
pushes or pops), so every parse keeps the stack empty, and `is_verse_text`
on the empty stack is true for every stylesheet — in particular at every
Text token of every input. -/
theorem claim_C4_stack_empty :
    (∀ (sty : UsfmStylesheet) (prev : Option UsfmToken) (t : UsfmToken) (st : ParseSt),
        (step sty prev t st).stack = st.stack) ∧
    (∀ text : Str, (parse_state text).stack = []) ∧
    (∀ sty : UsfmStylesheet, is_verse_text sty [] = true) := by
  refine ⟨step_stack, ?_, fun sty => rfl⟩
  intro text
  unfold parse_state
  rw [driver_loop_stack]
  rfl

/-- C5: for every input string the tokenizer's scan loop terminates within
its fuel (the only modelled failure mode never occurs), so `parse` is a
total function from strings to a finite list of string pairs; no other
operation of the driver can fail. -/
theorem claim_C5_total (text : Str) :
    tokenize_opt text = some (tokenize text) ∧
    parse text = clean_verses (add_last_verse
      (driver_loop default_stylesheet none (tokenize text) init_state)) := by
  constructor
  · rcases Option.isSome_iff_exists.mp (tokenize_opt_isSome text) with ⟨v, hv⟩
    rw [hv]
    unfold tokenize
    rw [hv]
    rfl
  · rfl

def c6_input : Str := str "\\id GEN\n\\c 1\n\\v 5 lost\n\\c 1\n\\v 5 kept\n\\v 6 x"

def c6_prefix_state : ParseSt :=
  driver_loop default_stylesheet none ((tokenize c6_input).take 9) init_state

/-- C6 (counterexample): in `c6_input` the second `\c 1` (token index 9)
arrives while book/chapter/verse are `GEN`/`1`/`5` and the pending buffer
trims to `lost`, yet the key `GEN 1:5` is present in the final map (written
later from the re-opened verse), refuting "the last verse before every
chapter transition is absent from the result". -/
theorem claim_C6_counterexample :
    (tokenize c6_input).get? 9 =
      some ⟨UsfmTokenType.CHAPTER, some (str "c"), none, some (str "1"), 4, 0⟩ ∧
    c6_prefix_state.current_book = str "GEN" ∧
    c6_prefix_state.current_chapter = str "1" ∧
    c6_prefix_state.current_verse = str "5" ∧
    stripWs c6_prefix_state.current_verse_text = str "lost" ∧
    (str "GEN 1:5", str "kept") ∈ parse c6_input := by decide

/-- C6 (amended): a Chapter token with data discards the pending verse —
it leaves the verses map unchanged while clearing `current_verse` and the
buffer and setting `current_chapter` — and the loop writes to the map only
at a Verse token with data (or at the end-of-stream finalization); the
discarded text is never written, though the same verse identity may still
appear in the result if it is finalized with text elsewhere in the
stream. -/
theorem claim_C6_chapter_discard :
    (∀ (sty : UsfmStylesheet) (prev : Option UsfmToken) (t : UsfmToken) (st : ParseSt),
        t.type = UsfmTokenType.CHAPTER → opt_nonempty t.data = true →
        (step sty prev t st).verses = st.verses ∧
        (step sty prev t st).current_verse = [] ∧
        (step sty prev t st).current_verse_text = [] ∧
        (step sty prev t st).current_chapter = t.data.getD []) ∧
    (∀ (sty : UsfmStylesheet) (prev : Option UsfmToken) (t : UsfmToken) (st : ParseSt),
        (step sty prev t st).verses = st.verses ∨
        (t.type == UsfmTokenType.VERSE && opt_nonempty t.data) = true) := by
  constructor
  · intro sty prev t st ht hd
    rw [step_chapter sty prev t st ht hd]
    exact ⟨rfl, rfl, rfl, rfl⟩
  · intro sty prev t st
    rcases step_verses_spec sty prev t st with he | ⟨hc, _, _⟩
    · left; exact he
    · right; exact hc

def c6_witness_state : ParseSt := ⟨[], str "GEN", str "1", str "5", str "lost", []⟩

def c6_witness_token : UsfmToken :=
  ⟨UsfmTokenType.CHAPTER, some (str "c"), none, some (str "2"), 1, 0⟩

/-- C6 (witness): the amended theorem applied to a concrete chapter token
arriving over a concrete pending verse. -/
theorem claim_C6_chapter_discard_witness :
    (step default_stylesheet none c6_witness_token c6_witness_state).verses =
      c6_witness_state.verses ∧
    (step default_stylesheet none c6_witness_token c6_witness_state).current_verse = [] ∧
    (step default_stylesheet none c6_witness_token c6_witness_state).current_verse_text
      = [] ∧
    (step default_stylesheet none c6_witness_token c6_witness_state).current_chapter =
      c6_witness_token.data.getD [] :=
  claim_C6_chapter_discard.1 default_stylesheet none c6_witness_token c6_witness_state
    rfl rfl

/-- C7: every value of the map returned by `parse` has no run of two or
more consecutive whitespace characters and no leading or trailing
whitespace (every value passes through `clean_text`). -/
theorem claim_C7_normalized (text k v : Str) (h : (k, v) ∈ parse text) :
    no_double_ws v = true ∧
    Option.all (fun c => !isWs c) v.head? = true ∧
    Option.all (fun c => !isWs c) v.getLast? = true := by
  unfold parse clean_verses at h
  rcases List.mem_map.mp h with ⟨kv, _, he⟩
  have hv : v = clean_text kv.2 := by
    have h2 := congrArg Prod.snd he
    simpa using h2.symm
  rw [hv]
  exact ⟨clean_text_no_double_ws _, clean_text_head _, clean_text_getLast _⟩

/-- C7 (witness): the theorem applied to the value of `GEN 1:1` for a
concrete input. -/
theorem claim_C7_normalized_witness :
    no_double_ws (str "Hi") = true ∧
    Option.all (fun c => !isWs c) (str "Hi").head? = true ∧
    Option.all (fun c => !isWs c) (str "Hi").getLast? = true :=
  claim_C7_normalized (str "\\id GEN\n\\c 1\n\\v 1 Hi") (str "GEN 1:1") (str "Hi")
    (by decide)

/-- C8: a finalization whose trimmed buffer is empty inserts nothing, both
at a Verse token inside the loop and at end-of-stream, and consequently no
key of the returned map is ever mapped to the empty string. -/
theorem claim_C8_no_empty :
    (∀ st : ParseSt, stripWs st.current_verse_text = [] →
        add_last_verse st = st.verses) ∧
    (∀ (sty : UsfmStylesheet) (prev : Option UsfmToken) (t : UsfmToken) (st : ParseSt),
        stripWs st.current_verse_text = [] → (step sty prev t st).verses = st.verses) ∧
    (∀ (text k v : Str), (k, v) ∈ parse text → v ≠ []) := by
  refine ⟨add_last_verse_empty, step_verses_empty, ?_⟩
  intro text k v h
  unfold parse clean_verses at h
  rcases List.mem_map.mp h with ⟨kv, hkv, he⟩
  have hv : v = clean_text kv.2 := by
    have h2 := congrArg Prod.snd he
    simpa using h2.symm
  rw [hv]
  exact clean_text_ne_nil (parse_content text kv hkv)

def c8_witness_state : ParseSt := ⟨[], str "GEN", str "1", str "5", str "  ", []⟩

/-- C8 (witness): the theorem applied to a whitespace-only pending buffer
and to a concrete parsed value. -/
theorem claim_C8_no_empty_witness :
    add_last_verse c8_witness_state = c8_witness_state.verses ∧
    str "Hi" ≠ ([] : Str) :=
  ⟨claim_C8_no_empty.1 c8_witness_state (by decide),
   claim_C8_no_empty.2.2 (str "\\id GEN\n\\c 1\n\\v 1 Hi") (str "GEN 1:1") (str "Hi")
     (by decide)⟩

/-- C9 (counterexample): for the stylesheet giving marker `w` the flag set
{VerseText, Title} — a strict superset containing VerseText — the claim's
inclusion reading says both predicates hold, but the code compares flag
sets with `==`, so `is_verse_para` is false on a PARA frame for `w` and
`is_verse_text` is false on a CHAR frame for `w`. -/
theorem claim_C9_counterexample :
    is_verse_para cex_stylesheet cex_para_stack = false ∧
    spec_is_verse_para_incl cex_stylesheet cex_para_stack = true ∧
    is_verse_text cex_stylesheet cex_char_stack = false ∧
    spec_is_verse_text_incl cex_stylesheet cex_char_stack = true := by decide

/-- C9 (amended): over every stack whose frames carry markers and every
stylesheet, `is_verse_para` holds iff the nearest paragraph tag is absent
or its flag set is exactly {VerseText} or exactly empty, and
`is_verse_text` holds iff no frame is Sidebar/Note, the paragraph predicate
holds, and every character tag's flag set is exactly {VerseText} or exactly
empty (set equality, not inclusion). -/
theorem claim_C9_amended (sty : UsfmStylesheet) (stack : List UsfmParserElement)
    (hm : ∀ e ∈ stack, e.marker ≠ none) :
    is_verse_para sty stack = spec_is_verse_para_eq sty stack ∧
    is_verse_text sty stack = spec_is_verse_text_eq sty stack :=
  ⟨is_verse_para_eq_spec sty stack hm, is_verse_text_eq_spec sty stack hm⟩

/-- C9 (witness): the amended theorem applied to a concrete stack and
stylesheet. -/
theorem claim_C9_amended_witness :
    is_verse_para cex_stylesheet cex_char_stack =
      spec_is_verse_para_eq cex_stylesheet cex_char_stack ∧
    is_verse_text cex_stylesheet cex_char_stack =
      spec_is_verse_text_eq cex_stylesheet cex_char_stack :=
  claim_C9_amended cex_stylesheet cex_char_stack (by decide)

/-- C10: verse-text normalization is determined by the word sequence alone:
the cleaned text is exactly the words joined by single spaces, so any
whitespace-only perturbation that preserves the words yields the same
normalized value; a concrete perturbed input parses to the same map. -/
theorem claim_C10_ws_invariance :
    (∀ l : Str, clean_text l = join_words (words_of l)) ∧
    (∀ l l' : Str, words_of l = words_of l' → clean_text l = clean_text l') ∧
    parse (str "\\id GEN\n\\c 1\n\\v 1 In the beginning") =
      parse (str "\\id GEN\n\\c 1\n\\v 1 In  the\nbeginning") := by
  refine ⟨clean_text_eq_join_words, fun l l' h => ?_, by decide⟩
  rw [clean_text_eq_join_words, clean_text_eq_join_words, h]

/-- C10 (witness): the invariance applied to two concrete strings with the
same words but different whitespace. -/
theorem claim_C10_ws_invariance_witness :
    clean_text (str "a  b") = clean_text (str " a\nb ") :=
  claim_C10_ws_invariance.2.1 (str "a  b") (str " a\nb ") (by decide)
